import Mathlib

/-! Verification of the conversion/dependency-resolution engine of
`util.py`: the `Plugins` module registry and the `Converter` rule table
with its weighted candidate search (`add_rule`, `may_produce`,
`Converter.__call__`).  File-system access, regular-expression matching
and the module search/load primitives are modelled as outcome oracles
fixed for the duration of one call, which matches the code's use of them
(a single `os.path.exists` predicate, `re` matching, and `imp` lookups). -/

namespace Rubber

/-- Outcome oracle for the module search and load primitives used by
`Plugins.register` (`util.py` lines 172-193): `findLocal m` tells whether
`imp.find_module(m, [""])` succeeds, `pathSet` whether `self.path` is
set, `findPath m` whether `imp.find_module(m, self.path)` succeeds, and
`loadFails m` whether `imp.load_module` raises on the found module. -/
structure ModEnv where
  findLocal : String → Bool
  pathSet : Bool
  findPath : String → Bool
  loadFails : String → Bool

/-- Mutable state of a `Plugins` object: the key set of `self.modules`
(as a list), plus a log of every completed `imp.load_module` call so
that actual loads can be counted. -/
structure PluginsState where
  modules : List String
  loadEvents : List String
deriving DecidableEq

/-- Derived predicate: the two-stage search of `register` finds `name`
(first `imp.find_module(name, [""])`, then, only when `self.path` is
set, `imp.find_module(name, self.path)`). -/
def findable (me : ModEnv) (name : String) : Bool :=
  if me.findLocal name then true
  else if me.pathSet then me.findPath name else false

/-- Embedding of `Plugins.register` (`util.py` lines 172-193).  Result
`(some 2, st)` when the name is already cached, `(some 0, st)` when both
searches fail (the two `ImportError` handlers), `(some 1, st')` after a
successful `imp.load_module` that caches the module, and `(none, st)`
when the load raises: the `imp.load_module` call on line 190 sits
outside both `try` blocks, so its exceptions propagate to the caller. -/
def register (me : ModEnv) (st : PluginsState) (name : String) :
    Option Nat × PluginsState :=
  if name ∈ st.modules then (some 2, st)
  else if findable me name then
    if me.loadFails name then (none, st)
    else (some 1, ⟨name :: st.modules, name :: st.loadEvents⟩)
  else (some 0, st)

/-- Weighted plugin list: the value stored under one source template. -/
abbrev WeightedList := List (Int × String)

/-- Rule table of a `Converter`: pattern source text, mapped to an
association list from source templates to weighted plugin lists.
Compiled patterns are identified with their source text: `re.compile`
memoizes compilation, so compiling an already-seen pattern string
returns the very dictionary key object used before (`util.py` lines
228-230 and 241-243), making the key structural in the pattern text.
Python dictionaries are modelled as association lists in insertion
order, which fixes one concrete enumeration order for `items()`. -/
abbrev RuleTable := List (String × List (String × WeightedList))

/-- Embedding of a `Converter` object: the rule table.  The plugin set
`self.plugins` is carried separately as explicit registry state. -/
structure Converter where
  rules : RuleTable
deriving DecidableEq

/-- Lookup in an association list, mirroring `dict.has_key` plus
indexing. -/
def assocFind {β : Type} (k : String) : List (String × β) → Option β
  | [] => none
  | (k₁, v) :: rest => if k₁ = k then some v else assocFind k rest

/-- Update-or-append in an association list, mirroring `dict[k] = v`:
replaces the value in place when the key exists, else appends. -/
def assocSet {β : Type} (k : String) (v : β) :
    List (String × β) → List (String × β)
  | [] => [(k, v)]
  | (k₁, v₁) :: rest =>
    if k₁ = k then (k, v) :: rest else (k₁, v₁) :: assocSet k v rest

/-- Embedding of `Converter.add_rule` (`util.py` lines 233-248): ensure
an entry for the compiled target pattern exists, then prepend
`(weight, mod)` to the list under `source` when that template is
already present (`dict[source].insert(0, ...)`), else start a fresh
singleton list. -/
def add_rule (c : Converter) (target source : String) (weight : Int)
    (mod : String) : Converter :=
  let dict := (assocFind target c.rules).getD []
  let entry : WeightedList :=
    match assocFind source dict with
    | some l => (weight, mod) :: l
    | none => [(weight, mod)]
  ⟨assocSet target (assocSet source entry dict) c.rules⟩

/-- Oracles for `Converter.__call__`: `pmatch p n` is success of
matching the pattern with source text `p` against name `n`
(`dest.match(...)`), `expand p t s` is `m.expand(s)` where `m` is the
match of pattern `p` against target `t`, `fsExists` is
`os.path.exists`, `me` drives the plugin registry, and `convert m s t`
is the loaded module `m`'s `convert(source, target, env, **args)`
result, with `none` for `None` and `some k` for a dependency node
carrying opaque payload `k`. -/
structure CallEnv where
  pmatch : String → String → Bool
  expand : String → String → String → String
  fsExists : String → Bool
  me : ModEnv
  convert : String → String → String → Option Nat

/-- Embedding of `Converter.may_produce` (`util.py` lines 250-259):
true when the name matches at least one registered target pattern. -/
def may_produce (env : CallEnv) (c : Converter) (name : String) : Bool :=
  c.rules.any (fun dr => env.pmatch dr.1 name)

/-- Candidate tuple `(weight, source, target, mod)` exactly as appended
to the `conv` list on `util.py` line 284. -/
abbrev Cand := Int × String × String × String

/-- Outcome of the candidate-enumeration loop of `__call__` (`util.py`
lines 270-284): an exception escaped (`raised`, from a failing module
load), the safe-mode branch returned a leaf (`leafReturn`), or the loop
ran to completion with the accumulated `conv` list (`go`). -/
inductive Phase1 where
  | raised
  | leafReturn
  | go (conv : List Cand)
deriving DecidableEq

/-- True exactly on the `go` outcome. -/
def Phase1.isGo : Phase1 → Bool
  | .go _ => true
  | _ => false

/-- Inner loop `for (weight, mod) in mods` (`util.py` lines 281-284):
register each plugin, skip an entry whose registration reports not
found, append a candidate tuple otherwise; a raising load aborts the
whole call, returning `none` together with the registry state at the
moment of the raise. -/
def procMods (env : CallEnv) (source target : String) :
    List (Int × String) → PluginsState → Option (List Cand) × PluginsState
  | [], st => (some [], st)
  | (weight, mod) :: rest, st =>
    match register env.me st mod with
    | (none, st₁) => (none, st₁)
    | (some r, st₁) =>
      match procMods env source target rest st₁ with
      | (none, st₂) => (none, st₂)
      | (some cs, st₂) =>
        if r = 0 then (some cs, st₂)
        else (some ((weight, source, target, mod) :: cs), st₂)

/-- Middle loop `for src, mods in rules.items()` (`util.py` lines
275-284): expand the source template, skip it when the expanded source
does not exist, take the safe-mode short-circuit (`util.py` lines
279-280) when `safe` is set, the target exists and `may_produce` holds
for the source, and otherwise register the entry's plugins. -/
def procSrcs (env : CallEnv) (c : Converter) (dest target : String)
    (safe : Bool) :
    List (String × WeightedList) → PluginsState → Phase1 × PluginsState
  | [], st => (.go [], st)
  | (src, mods) :: rest, st =>
    let source := env.expand dest target src
    if env.fsExists source = false then
      procSrcs env c dest target safe rest st
    else if safe && env.fsExists target && may_produce env c source then
      (.leafReturn, st)
    else
      match procMods env source target mods st with
      | (none, st₁) => (.raised, st₁)
      | (some cs, st₁) =>
        match procSrcs env c dest target safe rest st₁ with
        | (.go cs₁, st₂) => (.go (cs ++ cs₁), st₂)
        | other => other

/-- Outer loop `for dest, rules in self.rules.items()` (`util.py` lines
271-284): skip patterns that do not match the target, process the
per-pattern source templates otherwise. -/
def procRules (env : CallEnv) (c : Converter) (target : String)
    (safe : Bool) : RuleTable → PluginsState → Phase1 × PluginsState
  | [], st => (.go [], st)
  | (dest, srcs) :: rest, st =>
    if env.pmatch dest target then
      match procSrcs env c dest target safe srcs st with
      | (.go cs, st₁) =>
        match procRules env c target safe rest st₁ with
        | (.go cs₁, st₂) => (.go (cs ++ cs₁), st₂)
        | other => other
      | other => other
    else procRules env c target safe rest st

/-- Character-code key of a string, mapping Python's byte-wise string
comparison to the lexicographic order on lists of naturals. -/
def strKey (s : String) : List Nat := s.data.map Char.toNat

/-- Order key of a candidate tuple: lexicographic by weight, then
source, then target, then module name — exactly Python's comparison of
the 4-tuples that `conv.sort()` (`util.py` line 286) uses. -/
abbrev CandKey := Lex (Int × Lex (List Nat × Lex (List Nat × List Nat)))

/-- Order key of one candidate tuple. -/
def candKey (a : Cand) : CandKey :=
  toLex (a.1, toLex (strKey a.2.1, toLex (strKey a.2.2.1, strKey a.2.2.2)))

/-- Boolean comparison implementing Python's tuple comparison on
candidate tuples. -/
def candLe (a b : Cand) : Bool := decide (candKey a ≤ candKey b)

/-- Model of `conv.sort()` (`util.py` line 286): Python's sort is a
stable sort by the tuple order; insertion sort by a total order is
stable, so it computes the same list. -/
def pySort (l : List Cand) : List Cand :=
  List.insertionSort (fun a b => candLe a b = true) l

/-- Value returned by `Converter.__call__`: the bare dependency leaf of
the safe-mode branch (`return DependLeaf(env, target)`, line 280 — note
this is a node object, not a tuple), a successful pair
`(weight, dep)` (line 290, the node payload is the `convert` oracle's
value), or the failure pair `(None, None)` (line 292). -/
inductive CallResult where
  | leaf (target : String)
  | pair (weight : Int) (node : Nat)
  | nonePair
deriving DecidableEq

/-- True on the two tuple-shaped results, false on the bare leaf. -/
def CallResult.isPair : CallResult → Bool
  | .pair _ _ => true
  | .nonePair => true
  | .leaf _ => false

/-- Final loop of `__call__` (`util.py` lines 287-290): call each
sorted candidate's `convert` until one returns a node.  Also returns
the trace of candidate tuples whose `convert` was invoked, in
invocation order. -/
def tryConv (env : CallEnv) : List Cand → Option (Int × Nat) × List Cand
  | [] => (none, [])
  | (w, s, t, m) :: rest =>
    match env.convert m s t with
    | some n => (some (w, n), [(w, s, t, m)])
    | none =>
      let r := tryConv env rest
      (r.1, (w, s, t, m) :: r.2)

/-- Embedding of `Converter.__call__` (`util.py` lines 261-292).  The
result components are: the returned value (`none` when a module-load
exception propagates out of the call), the converter object as left by
the call (the method never writes `self.rules`), the registry state,
and the trace of candidate tuples whose plugin `convert` was
invoked. -/
def convCall (env : CallEnv) (c : Converter) (target : String)
    (safe : Bool) (st : PluginsState) :
    Option CallResult × Converter × PluginsState × List Cand :=
  match procRules env c target safe c.rules st with
  | (.raised, st₁) => (none, c, st₁, [])
  | (.leafReturn, st₁) => (some (.leaf target), c, st₁, [])
  | (.go conv, st₁) =>
    match tryConv env (pySort conv) with
    | (some (w, n), tr) => (some (.pair w n), c, st₁, tr)
    | (none, tr) => (some .nonePair, c, st₁, tr)

/-- Module environment in which every module is findable locally and
every load succeeds. -/
def meAll : ModEnv := ⟨fun _ => true, false, fun _ => false, fun _ => false⟩

/-- Module environment in which no module can be found anywhere. -/
def meNone : ModEnv := ⟨fun _ => false, false, fun _ => false, fun _ => false⟩

/-- Concrete environment for the tie-break scenario: one pattern `P`
matching only the target `t.pdf`, expansion returning the template
itself, every path existing, and `amod` producing node 1 while any
other module produces node 2. -/
def envC1 : CallEnv :=
  ⟨fun p n => p = "P" && n = "t.pdf", fun _ _ s => s, fun _ => true, meAll,
   fun m _ _ => if m = "amod" then some 1 else some 2⟩

/-- Converter built by two add_rule calls for the same pattern, source
template and weight: `zmod` is prepended, so enumeration meets it
first. -/
def cC1 : Converter :=
  add_rule (add_rule ⟨[]⟩ "P" "s.dvi" 5 "amod") "P" "s.dvi" 5 "zmod"

/-- Concrete environment whose single pattern `P` matches both the
target `t.pdf` and the source `s.dvi`, so safe mode short-circuits. -/
def envLeaf : CallEnv :=
  ⟨fun p n => p = "P" && (n = "t.pdf" || n = "s.dvi"), fun _ _ s => s,
   fun _ => true, meAll, fun _ _ _ => some 1⟩

/-- Single-rule converter used with `envLeaf`. -/
def cLeaf : Converter := ⟨[("P", [("s.dvi", [(5, "amod")])])]⟩

/-- Concrete environment for the load-failure counterexample with a
distinct other pattern: `Q` matches `t.pdf` and `s.dvi`, `P` matches
only `t.pdf`, nothing matches `bad.src`, and loading `badmod`
raises. -/
def envC3 : CallEnv :=
  ⟨fun p n =>
      (p = "Q" && (n = "t.pdf" || n = "s.dvi")) || (p = "P" && n = "t.pdf"),
   fun _ _ s => s, fun _ => true,
   ⟨fun _ => true, false, fun _ => false, fun m => m = "badmod"⟩,
   fun _ _ _ => some 1⟩

/-- Rule table whose first enumerated candidate uses the raising
`badmod` while the second is a safe-mode qualifying candidate. -/
def cC3 : Converter :=
  ⟨[("Q", [("bad.src", [(1, "badmod")])]),
    ("P", [("s.dvi", [(5, "good")])])]⟩

/-- Concrete environment for the same-pattern load-failure
counterexample: `S` matches `t9` and `src9` (and is the only pattern
matching `src9`), `R` matches only `t9`, and loading `badmod9`
raises. -/
def envC9 : CallEnv :=
  ⟨fun p n => (p = "R" && n = "t9") || (p = "S" && (n = "t9" || n = "src9")),
   fun _ _ s => s, fun _ => true,
   ⟨fun _ => true, false, fun _ => false, fun m => m = "badmod9"⟩,
   fun _ _ _ => some 1⟩

/-- Rule table whose first enumerated candidate uses the raising
`badmod9` while the second's source is matched only by its own
pattern. -/
def cC9 : Converter :=
  ⟨[("R", [("badsrc9", [(1, "badmod9")])]),
    ("S", [("src9", [(5, "m9")])])]⟩

/-- Concrete environment for the unfindable-plugin counterexample: the
pattern matches, the source exists, but no module can be found. -/
def envC10 : CallEnv :=
  ⟨fun p n => p = "P" && n = "t", fun _ _ s => s, fun _ => true, meNone,
   fun _ _ _ => some 1⟩

/-- Single-rule converter naming the unfindable plugin `ghost`. -/
def cC10 : Converter := ⟨[("P", [("s", [(1, "ghost")])])]⟩

/-- Concrete environment with two competing plugins of different
weights that both accept. -/
def envW4 : CallEnv :=
  ⟨fun p n => p = "P" && n = "t", fun _ _ s => s, fun _ => true, meAll,
   fun m _ _ => if m = "a" then some 10 else some 20⟩

/-- Two-plugin converter used with `envW4`: weight 1 for `a`, weight 2
for `b`. -/
def cW4 : Converter := ⟨[("P", [("s", [(1, "a"), (2, "b")])])]⟩

/-- Concrete environment whose only plugin is findable but declines
every conversion, so resolution ends with the failure pair. -/
def envW10 : CallEnv :=
  ⟨fun p n => p = "P" && n = "t", fun _ _ s => s, fun _ => true, meAll,
   fun _ _ _ => none⟩

/-- Single-rule converter naming the findable plugin `plug`. -/
def cW10 : Converter := ⟨[("P", [("s", [(1, "plug")])])]⟩

/-- Concrete environment for the not-found registration witness: no
module findable. -/
def envC6 : CallEnv :=
  ⟨fun _ _ => true, fun _ _ s => s, fun _ => true, meNone, fun _ _ _ => some 1⟩

/-- Single-rule converter whose pattern already holds one entry, used
for the add_rule reuse witness. -/
def cC5 : Converter := ⟨[("P", [("s", [(1, "a")])])]⟩

/-! Helper lemmas about the candidate order and the two phases. -/

instance : IsTrans Cand (fun a b => candLe a b = true) :=
  ⟨fun a b c hab hbc => by
    simp only [candLe, decide_eq_true_eq] at hab hbc ⊢
    exact le_trans hab hbc⟩

instance : IsTotal Cand (fun a b => candLe a b = true) :=
  ⟨fun a b => by
    simp only [candLe, decide_eq_true_eq]
    exact le_total _ _⟩

/-- Tuple comparison is monotone in the leading weight component. -/
theorem candLe_weight {a b : Cand} (h : candLe a b = true) : a.1 ≤ b.1 := by
  simp only [candLe, decide_eq_true_eq, candKey] at h
  rcases (Prod.Lex.le_iff _ _).1 h with h1 | ⟨h1, _⟩
  · exact le_of_lt h1
  · exact le_of_eq h1

/-- The sorted candidate list is pairwise ordered by tuple comparison. -/
theorem pySort_sorted (l : List Cand) :
    List.Pairwise (fun a b => candLe a b = true) (pySort l) :=
  List.sorted_insertionSort _ l

/-- Sorting keeps exactly the recorded candidates. -/
theorem mem_pySort {a : Cand} {l : List Cand} : a ∈ pySort l ↔ a ∈ l :=
  (List.perm_insertionSort _ l).mem_iff

/-- The attempted-candidate trace is a sublist of the sorted list. -/
theorem tryConv_trace_sublist (env : CallEnv) (l : List Cand) :
    ((tryConv env l).2).Sublist l := by
  induction l with
  | nil => simp [tryConv]
  | cons hd tl ih =>
    obtain ⟨w, s, t, m⟩ := hd
    simp only [tryConv]
    cases henv : env.convert m s t with
    | some n =>
      exact List.Sublist.cons₂ _ (List.nil_sublist tl)
    | none =>
      exact List.Sublist.cons₂ _ ih

/-- When a pairwise-sorted candidate list contains a candidate whose
plugin accepts, the convert loop returns a pair whose weight is at most
that candidate's weight, and every candidate it attempted along the way
has weight at most that candidate's weight. -/
theorem tryConv_success {env : CallEnv} {l : List Cand} {cd : Cand} {n : Nat}
    (hs : List.Pairwise (fun a b => candLe a b = true) l)
    (hmem : cd ∈ l)
    (hc : env.convert cd.2.2.2 cd.2.1 cd.2.2.1 = some n) :
    ∃ w k, (tryConv env l).1 = some (w, k) ∧ w ≤ cd.1 ∧
      ∀ e ∈ (tryConv env l).2, e.1 ≤ cd.1 := by
  induction l with
  | nil => cases hmem
  | cons hd tl ih =>
    obtain ⟨w₀, s₀, t₀, m₀⟩ := hd
    rw [List.pairwise_cons] at hs
    have hwle : ∀ e ∈ tl, e.1 ≤ cd.1 → (w₀ : Int) ≤ cd.1 := by
      intro e he hle
      exact le_trans (candLe_weight (hs.1 e he)) hle
    simp only [tryConv]
    cases henv : env.convert m₀ s₀ t₀ with
    | some k =>
      have hw : (w₀ : Int) ≤ cd.1 := by
        rcases List.mem_cons.1 hmem with heq | hin
        · rw [heq]
        · exact le_trans (candLe_weight (hs.1 cd hin)) le_rfl
      exact ⟨w₀, k, rfl, hw, by
        intro e he
        simp only [List.mem_singleton] at he
        rw [he]
        exact hw⟩
    | none =>
      have hin : cd ∈ tl := by
        rcases List.mem_cons.1 hmem with heq | hin
        · exfalso
          rw [heq] at hc
          simp only at hc
          rw [hc] at henv
          cases henv
        · exact hin
      obtain ⟨w, k, h1, h2, h3⟩ := ih hs.2 hin
      have hw0 : (w₀ : Int) ≤ cd.1 :=
        le_trans (candLe_weight (hs.1 cd hin)) le_rfl
      refine ⟨w, k, h1, h2, ?_⟩
      intro e he
      simp only [List.mem_cons] at he
      rcases he with he | he
      · rw [he]
        exact hw0
      · exact h3 e he

/-- A successful convert loop got its node from some attempted candidate
of the list, whose plugin accepted and whose weight is the returned
weight. -/
theorem tryConv_some_mem {env : CallEnv} {l : List Cand} {w : Int} {n : Nat}
    (h : (tryConv env l).1 = some (w, n)) :
    ∃ s t m, (w, s, t, m) ∈ l ∧ (w, s, t, m) ∈ (tryConv env l).2 ∧
      env.convert m s t = some n := by
  induction l with
  | nil => simp [tryConv] at h
  | cons hd tl ih =>
    obtain ⟨w₀, s₀, t₀, m₀⟩ := hd
    simp only [tryConv] at h ⊢
    cases henv : env.convert m₀ s₀ t₀ with
    | some k =>
      rw [henv] at h
      simp only [Option.some_inj, Prod.mk.injEq] at h
      exact ⟨s₀, t₀, m₀, by simp [h.1], by simp [henv, h.1], by
        rw [henv, h.2]⟩
    | none =>
      rw [henv] at h
      simp only at h
      obtain ⟨s, t, m, h1, h2, h3⟩ := ih h
      exact ⟨s, t, m, List.mem_cons_of_mem _ h1, by
        simp [henv, List.mem_cons_of_mem, h2], h3⟩

/-- Registration only ever adds cached modules. -/
theorem register_modules_mono (me : ModEnv) (st : PluginsState)
    (name : String) : st.modules ⊆ (register me st name).2.modules := by
  unfold register
  split
  · exact fun a ha => ha
  · split
    · split
      · exact fun a ha => ha
      · exact fun a ha => List.mem_cons_of_mem _ ha
    · exact fun a ha => ha

/-- The inner plugin-registration loop only ever adds cached modules. -/
theorem procMods_modules_mono (env : CallEnv) (source target : String)
    (mods : List (Int × String)) (st : PluginsState) :
    st.modules ⊆ (procMods env source target mods st).2.modules := by
  induction mods generalizing st with
  | nil => exact fun a ha => ha
  | cons hd tl ih =>
    obtain ⟨w, m⟩ := hd
    have hreg := register_modules_mono env.me st m
    simp only [procMods]
    split
    · next st₁ heq =>
      rw [heq] at hreg
      exact hreg
    · next r st₁ heq =>
      rw [heq] at hreg
      have hrest := ih st₁
      split
      · next st₂ heq₂ =>
        rw [heq₂] at hrest
        exact fun a ha => hrest (hreg ha)
      · next cs st₂ heq₂ =>
        rw [heq₂] at hrest
        split
        · exact fun a ha => hrest (hreg ha)
        · exact fun a ha => hrest (hreg ha)

/-- The source-template loop only ever adds cached modules. -/
theorem procSrcs_modules_mono (env : CallEnv) (c : Converter)
    (dest target : String) (safe : Bool)
    (srcs : List (String × WeightedList)) (st : PluginsState) :
    st.modules ⊆ (procSrcs env c dest target safe srcs st).2.modules := by
  induction srcs generalizing st with
  | nil => exact fun a ha => ha
  | cons hd tl ih =>
    obtain ⟨src, mods⟩ := hd
    simp only [procSrcs]
    split
    · exact ih st
    · split
      · exact fun a ha => ha
      · next =>
        have hpm := procMods_modules_mono env (env.expand dest target src)
          target mods st
        split
        · next st₁ heq =>
          rw [heq] at hpm
          exact hpm
        · next cs st₁ heq =>
          rw [heq] at hpm
          have hrest := ih st₁
          split
          · next cs₁ st₂ heq₂ =>
            rw [heq₂] at hrest
            exact fun a ha => hrest (hpm ha)
          · exact fun a ha => hrest (hpm ha)

/-- The whole enumeration loop only ever adds cached modules. -/
theorem procRules_modules_mono (env : CallEnv) (c : Converter)
    (target : String) (safe : Bool) (rl : RuleTable) (st : PluginsState) :
    st.modules ⊆ (procRules env c target safe rl st).2.modules := by
  induction rl generalizing st with
  | nil => exact fun a ha => ha
  | cons hd tl ih =>
    obtain ⟨dest, srcs⟩ := hd
    simp only [procRules]
    split
    · have hps := procSrcs_modules_mono env c dest target safe srcs st
      split
      · next cs st₁ heq =>
        rw [heq] at hps
        have hrest := ih st₁
        split
        · next cs₁ st₂ heq₂ =>
          rw [heq₂] at hrest
          exact fun a ha => hrest (hps ha)
        · exact fun a ha => hrest (hps ha)
      · exact hps
    · exact ih st

/-- A registration that does not raise caches any findable module. -/
theorem register_found_mem {me : ModEnv} {st : PluginsState} {m : String}
    (hf : findable me m = true) (hr : (register me st m).1 ≠ none) :
    m ∈ (register me st m).2.modules := by
  by_cases hmem : m ∈ st.modules
  · simp [register, hmem]
  · by_cases hl : me.loadFails m = true
    · exfalso
      apply hr
      simp [register, hmem, hf, hl]
    · simp only [Bool.not_eq_true] at hl
      simp [register, hmem, hf, hl]

/-- When the inner registration loop completes without raising, every
findable module named in the list ends up cached in the final state. -/
theorem procMods_registers {env : CallEnv} {source target : String}
    {mods : List (Int × String)} {st stF : PluginsState} {ocs : Option (List Cand)}
    (h : procMods env source target mods st = (ocs, stF)) (ho : ocs ≠ none) :
    ∀ w m, (w, m) ∈ mods → findable env.me m = true → m ∈ stF.modules := by
  induction mods generalizing st stF ocs with
  | nil =>
    intro w m hm
    cases hm
  | cons hd tl ih =>
    obtain ⟨w₀, m₀⟩ := hd
    intro w m hm hf
    simp only [procMods] at h
    split at h
    · next st₁ heq =>
      injection h with h1 h2
      exact absurd h1.symm ho
    · next rv st₁ heq =>
      split at h
      · next st₂ heq₂ =>
        injection h with h1 h2
        exact absurd h1.symm ho
      · next cs₀ st₂ heq₂ =>
        have hstF : st₂ = stF := by
          split at h <;> injection h with h1 h2
        subst hstF
        rcases List.mem_cons.1 hm with heqm | hin
        · have hm₀ : m = m₀ := by
            injection heqm with h1 h2
          subst hm₀
          have h₁ : m ∈ st₁.modules := by
            have hmm := @register_found_mem env.me st m hf (by
              rw [heq]
              simp)
            rw [heq] at hmm
            exact hmm
          have hmono := procMods_modules_mono env source target tl st₁
          rw [heq₂] at hmono
          exact hmono h₁
        · exact ih heq₂ (by simp) w m hin hf

/-- When the source-template loop runs to completion, every findable
module attached to a template whose expanded source exists ends up
cached in the final state. -/
theorem procSrcs_registers {env : CallEnv} {c : Converter}
    {dest target : String} {safe : Bool}
    {srcs : List (String × WeightedList)} {st stF : PluginsState}
    {cs : List Cand}
    (h : procSrcs env c dest target safe srcs st = (.go cs, stF)) :
    ∀ src mods, (src, mods) ∈ srcs →
      env.fsExists (env.expand dest target src) = true →
      ∀ w m, (w, m) ∈ mods → findable env.me m = true → m ∈ stF.modules := by
  induction srcs generalizing st stF cs with
  | nil =>
    intro src mods hm
    cases hm
  | cons hd tl ih =>
    obtain ⟨src₀, mods₀⟩ := hd
    intro src mods hm hex w m hwm hf
    simp only [procSrcs] at h
    split at h
    · next hex₀ =>
      rcases List.mem_cons.1 hm with heqm | hin
      · exfalso
        injection heqm with h1 h2
        rw [h1] at hex
        rw [hex] at hex₀
        cases hex₀
      · exact ih h src mods hin hex w m hwm hf
    · next hex₀ =>
      split at h
      · injection h with h1 h2
        cases h1
      · next hsafe =>
        split at h
        · next st₁ heq =>
          injection h with h1 h2
          cases h1
        · next cs₀ st₁ heq =>
          split at h
          · next cs₁ st₂ heq₂ =>
            injection h with h1 h2
            subst h2
            rcases List.mem_cons.1 hm with heqm | hin
            · injection heqm with h1' h2'
              subst h1'
              subst h2'
              have hmem₁ : m ∈ st₁.modules :=
                procMods_registers heq (by simp) w m hwm hf
              have hmono := procSrcs_modules_mono env c dest target safe tl st₁
              rw [heq₂] at hmono
              exact hmono hmem₁
            · exact ih heq₂ src mods hin hex w m hwm hf
          · next hfalse =>
            exact absurd h (hfalse cs stF)

/-- When the whole enumeration loop runs to completion, every findable
module of every matching pattern's template with an existing expanded
source ends up cached in the final registry state. -/
theorem procRules_registers {env : CallEnv} {c : Converter} {target : String}
    {safe : Bool} {rl : RuleTable} {st stF : PluginsState} {cs : List Cand}
    (h : procRules env c target safe rl st = (.go cs, stF)) :
    ∀ dest srcs, (dest, srcs) ∈ rl → env.pmatch dest target = true →
      ∀ src mods, (src, mods) ∈ srcs →
        env.fsExists (env.expand dest target src) = true →
        ∀ w m, (w, m) ∈ mods → findable env.me m = true → m ∈ stF.modules := by
  induction rl generalizing st stF cs with
  | nil =>
    intro dest srcs hm
    cases hm
  | cons hd tl ih =>
    obtain ⟨dest₀, srcs₀⟩ := hd
    intro dest srcs hm hpm src mods hsm hex w m hwm hf
    simp only [procRules] at h
    split at h
    · next hpm₀ =>
      split at h
      · next cs₀ st₁ heq =>
        split at h
        · next cs₁ st₂ heq₂ =>
          injection h with h1 h2
          subst h2
          rcases List.mem_cons.1 hm with heqm | hin
          · injection heqm with h1' h2'
            subst h1'
            subst h2'
            have hm₁ := procSrcs_registers heq src mods hsm hex w m hwm hf
            have hmono := procRules_modules_mono env c target safe tl st₁
            rw [heq₂] at hmono
            exact hmono hm₁
          · exact ih heq₂ dest srcs hin hpm src mods hsm hex w m hwm hf
        · next hfalse =>
          exact absurd h (hfalse cs stF)
      · next hfalse =>
        exact absurd h (hfalse cs stF)
    · next hpm₀ =>
      rcases List.mem_cons.1 hm with heqm | hin
      · exfalso
        injection heqm with h1' h2'
        subst h1'
        exact hpm₀ hpm
      · exact ih h dest srcs hin hpm src mods hsm hex w m hwm hf

/-- The safe-mode short-circuit can only fire when `safe` is set and the
target exists on disk (the guard on `util.py` line 279). -/
theorem procSrcs_leafReturn {env : CallEnv} {c : Converter}
    {dest target : String} {safe : Bool}
    {srcs : List (String × WeightedList)} {st stF : PluginsState}
    (h : procSrcs env c dest target safe srcs st = (.leafReturn, stF)) :
    safe = true ∧ env.fsExists target = true := by
  induction srcs generalizing st stF with
  | nil =>
    simp only [procSrcs] at h
    injection h with h1 h2
    cases h1
  | cons hd tl ih =>
    obtain ⟨src₀, mods₀⟩ := hd
    simp only [procSrcs] at h
    split at h
    · exact ih h
    · split at h
      · next hsafe =>
        simp only [Bool.and_eq_true] at hsafe
        exact ⟨hsafe.1.1, hsafe.1.2⟩
      · split at h
        · next st₁ heq =>
          injection h with h1 h2
          cases h1
        · next cs₀ st₁ heq =>
          split at h
          · next cs₁ st₂ heq₂ =>
            injection h with h1 h2
            cases h1
          · exact ih h

/-- Lift of the previous lemma to the whole enumeration loop. -/
theorem procRules_leafReturn {env : CallEnv} {c : Converter}
    {target : String} {safe : Bool} {rl : RuleTable} {st stF : PluginsState}
    (h : procRules env c target safe rl st = (.leafReturn, stF)) :
    safe = true ∧ env.fsExists target = true := by
  induction rl generalizing st stF with
  | nil =>
    simp only [procRules] at h
    injection h with h1 h2
    cases h1
  | cons hd tl ih =>
    obtain ⟨dest₀, srcs₀⟩ := hd
    simp only [procRules] at h
    split at h
    · split at h
      · next cs₀ st₁ heq =>
        split at h
        · next cs₁ st₂ heq₂ =>
          injection h with h1 h2
          cases h1
        · next hfalse =>
          exact ih h
      · next hfalse =>
        exact procSrcs_leafReturn h
    · exact ih h

/-- When the source list contains a template whose expanded source
exists, the target exists and `may_produce` holds for the source, the
safe-mode source loop cannot run to completion: it either takes the
short-circuit or aborts on a raising load before reaching it. -/
theorem procSrcs_no_go {env : CallEnv} {c : Converter}
    {dest target : String} {srcs : List (String × WeightedList)}
    (htg : env.fsExists target = true) :
    ∀ src mods, (src, mods) ∈ srcs →
      env.fsExists (env.expand dest target src) = true →
      may_produce env c (env.expand dest target src) = true →
      ∀ st : PluginsState,
        ((procSrcs env c dest target true srcs st).1).isGo = false := by
  induction srcs with
  | nil =>
    intro src mods hm
    cases hm
  | cons hd tl ih =>
    obtain ⟨src₀, mods₀⟩ := hd
    intro src mods hm hex hmp st
    rcases List.mem_cons.1 hm with heqm | hin
    · injection heqm with h1 h2
      subst h1
      subst h2
      simp [procSrcs, hex, htg, hmp, Phase1.isGo]
    · simp only [procSrcs]
      split
      · exact ih src mods hin hex hmp st
      · split
        · rfl
        · split
          · rfl
          · next cs₀ st₁ heq =>
            split
            · next cs₁ st₂ heq₂ =>
              have hih := ih src mods hin hex hmp st₁
              rw [heq₂] at hih
              simp [Phase1.isGo] at hih
            · exact ih src mods hin hex hmp st₁

/-- Lift of the previous lemma to the whole enumeration loop: a
safe-mode call whose rule table contains a matching pattern with an
existing, reproducible source never completes the enumeration. -/
theorem procRules_no_go {env : CallEnv} {c : Converter} {target : String}
    {rl : RuleTable} (htg : env.fsExists target = true) :
    ∀ dest srcs, (dest, srcs) ∈ rl → env.pmatch dest target = true →
      ∀ src mods, (src, mods) ∈ srcs →
        env.fsExists (env.expand dest target src) = true →
        may_produce env c (env.expand dest target src) = true →
        ∀ st : PluginsState,
          ((procRules env c target true rl st).1).isGo = false := by
  induction rl with
  | nil =>
    intro dest srcs hm
    cases hm
  | cons hd tl ih =>
    obtain ⟨dest₀, srcs₀⟩ := hd
    intro dest srcs hm hpm src mods hsm hex hmp st
    rcases List.mem_cons.1 hm with heqm | hin
    · injection heqm with h1 h2
      subst h1
      subst h2
      have hps := procSrcs_no_go (c := c) htg src mods hsm hex hmp st
      simp only [procRules, hpm, if_true]
      rcases hres : procSrcs env c dest target true srcs st with ⟨p, st₁⟩
      rw [hres] at hps
      cases p with
      | raised => rfl
      | leafReturn => rfl
      | go cs₀ => simp [Phase1.isGo] at hps
    · simp only [procRules]
      split
      · split
        · next cs₀ st₁ heq =>
          split
          · next cs₁ st₂ heq₂ =>
            have hih := ih dest srcs hin hpm src mods hsm hex hmp st₁
            rw [heq₂] at hih
            simp [Phase1.isGo] at hih
          · exact ih dest srcs hin hpm src mods hsm hex hmp st₁
        · next hfalse =>
          rcases hres : procSrcs env c dest₀ target true srcs₀ st with ⟨p, st₁⟩
          cases p with
          | raised => rfl
          | leafReturn => rfl
          | go cs₀ => exact absurd hres (hfalse cs₀ st₁)
      · exact ih dest srcs hin hpm src mods hsm hex hmp st

/-- Every candidate recorded by the inner loop carries the expanded
source and the call's target. -/
theorem procMods_conv {env : CallEnv} {source target : String}
    {mods : List (Int × String)} {st stF : PluginsState} {cs : List Cand}
    (h : procMods env source target mods st = (some cs, stF)) :
    ∀ cd ∈ cs, cd.2.1 = source ∧ cd.2.2.1 = target := by
  induction mods generalizing st stF cs with
  | nil =>
    simp only [procMods] at h
    injection h with h1 h2
    injection h1 with h1
    subst h1
    intro cd hcd
    cases hcd
  | cons hd tl ih =>
    obtain ⟨w₀, m₀⟩ := hd
    simp only [procMods] at h
    split at h
    · next st₁ heq =>
      injection h with h1 h2
      cases h1
    · next rv st₁ heq =>
      split at h
      · next st₂ heq₂ =>
        injection h with h1 h2
        cases h1
      · next cs₀ st₂ heq₂ =>
        split at h
        · injection h with h1 h2
          injection h1 with h1
          subst h1
          exact ih heq₂
        · injection h with h1 h2
          injection h1 with h1
          subst h1
          intro cd hcd
          rcases List.mem_cons.1 hcd with hh | hh
          · subst hh
            exact ⟨rfl, rfl⟩
          · exact ih heq₂ cd hh

/-- Every candidate recorded by the source loop has an existing source
path and carries the call's target. -/
theorem procSrcs_conv {env : CallEnv} {c : Converter}
    {dest target : String} {safe : Bool}
    {srcs : List (String × WeightedList)} {st stF : PluginsState}
    {cs : List Cand}
    (h : procSrcs env c dest target safe srcs st = (.go cs, stF)) :
    ∀ cd ∈ cs, env.fsExists cd.2.1 = true ∧ cd.2.2.1 = target := by
  induction srcs generalizing st stF cs with
  | nil =>
    simp only [procSrcs] at h
    injection h with h1 h2
    injection h1 with h1
    subst h1
    intro cd hcd
    cases hcd
  | cons hd tl ih =>
    obtain ⟨src₀, mods₀⟩ := hd
    simp only [procSrcs] at h
    split at h
    · exact ih h
    · next hex₀ =>
      split at h
      · injection h with h1 h2
        cases h1
      · split at h
        · next st₁ heq =>
          injection h with h1 h2
          cases h1
        · next cs₀ st₁ heq =>
          split at h
          · next cs₁ st₂ heq₂ =>
            injection h with h1 h2
            injection h1 with h1
            subst h1
            intro cd hcd
            rcases List.mem_append.1 hcd with hh | hh
            · obtain ⟨hsrc, htgt⟩ := procMods_conv heq cd hh
              refine ⟨?_, htgt⟩
              rw [hsrc]
              simp only [Bool.not_eq_false] at hex₀
              exact hex₀
            · exact ih heq₂ cd hh
          · next hfalse =>
            exact absurd h (hfalse cs stF)

/-- Every candidate recorded by the whole enumeration has an existing
source path and carries the call's target. -/
theorem procRules_conv {env : CallEnv} {c : Converter} {target : String}
    {safe : Bool} {rl : RuleTable} {st stF : PluginsState} {cs : List Cand}
    (h : procRules env c target safe rl st = (.go cs, stF)) :
    ∀ cd ∈ cs, env.fsExists cd.2.1 = true ∧ cd.2.2.1 = target := by
  induction rl generalizing st stF cs with
  | nil =>
    simp only [procRules] at h
    injection h with h1 h2
    injection h1 with h1
    subst h1
    intro cd hcd
    cases hcd
  | cons hd tl ih =>
    obtain ⟨dest₀, srcs₀⟩ := hd
    simp only [procRules] at h
    split at h
    · split at h
      · next cs₀ st₁ heq =>
        split at h
        · next cs₁ st₂ heq₂ =>
          injection h with h1 h2
          injection h1 with h1
          subst h1
          intro cd hcd
          rcases List.mem_append.1 hcd with hh | hh
          · exact procSrcs_conv heq cd hh
          · exact ih heq₂ cd hh
        · next hfalse =>
          exact absurd h (hfalse cs stF)
      · next hfalse =>
        exact absurd h (hfalse cs stF)
    · exact ih h

/-- Updating an existing key finds the new value. -/
theorem assocFind_assocSet {β : Type} (k : String) (v : β)
    (l : List (String × β)) : assocFind k (assocSet k v l) = some v := by
  induction l with
  | nil => simp [assocFind, assocSet]
  | cons hd tl ih =>
    obtain ⟨k₁, v₁⟩ := hd
    by_cases hk : k₁ = k
    · simp [assocSet, assocFind, hk]
    · simp [assocSet, assocFind, hk, ih]

/-- Updating a key that is already present leaves the key list
unchanged. -/
theorem assocSet_keys_of_found {β : Type} {k : String} {l : List (String × β)}
    {v : β} (h : assocFind k l = some v) (v₁ : β) :
    (assocSet k v₁ l).map Prod.fst = l.map Prod.fst := by
  induction l with
  | nil => simp [assocFind] at h
  | cons hd tl ih =>
    obtain ⟨k₂, v₂⟩ := hd
    by_cases hk : k₂ = k
    · simp [assocSet, hk]
    · simp only [assocFind, hk, if_false] at h
      simp [assocSet, hk, ih h]

/-! Claim theorems. -/

/-- C5: Target Pattern keys are structurally unique under the memoized
compile: calling add_rule with a pattern string equal to the source
text of an already-registered pattern keeps the key list unchanged (no
second key) and stores the update of that pattern's existing
per-pattern mapping (prepending to the source template's weighted list
when the template exists, else adding a singleton). -/
theorem C5_add_rule_reuse {c : Converter} {target : String}
    {d : List (String × WeightedList)}
    (h : assocFind target c.rules = some d)
    (source : String) (weight : Int) (mod : String) :
    (add_rule c target source weight mod).rules.map Prod.fst =
        c.rules.map Prod.fst ∧
      assocFind target (add_rule c target source weight mod).rules =
        some (assocSet source
          (match assocFind source d with
           | some l => (weight, mod) :: l
           | none => [(weight, mod)]) d) := by
  unfold add_rule
  simp only [h, Option.getD_some]
  exact ⟨assocSet_keys_of_found h _, assocFind_assocSet _ _ _⟩

/-- Witness for C5 at a concrete converter: the key list stays `["P"]`
and the entry under `P` becomes the prepended list. -/
theorem C5_witness :
    (add_rule cC5 "P" "s" 0 "b").rules.map Prod.fst =
        cC5.rules.map Prod.fst ∧
      assocFind "P" (add_rule cC5 "P" "s" 0 "b").rules =
        some [("s", [((0 : Int), "b"), (1, "a")])] :=
  ⟨(@C5_add_rule_reuse cC5 "P" [("s", [(1, "a")])] rfl "s" 0 "b").1,
   (@C5_add_rule_reuse cC5 "P" [("s", [(1, "a")])] rfl "s" 0 "b").2⟩

/-- C6 as stated is refuted: module `m` is found by the search but its
load raises, so `register` propagates the exception (modelled result
`none`) instead of returning NOT_FOUND (0) without raising. -/
theorem C6_counterexample :
    register ⟨fun _ => true, false, fun _ => false, fun _ => true⟩
        ⟨[], []⟩ "m" = (none, ⟨[], []⟩) ∧
      (none : Option Nat) ≠ some 0 :=
  ⟨rfl, by simp⟩

/-- C6 amended: a failure to FIND the module (both searches fail)
makes register return NOT_FOUND (0) without raising and without
touching the registry, and the Converter's candidate loop skips such
an entry, continuing with the remaining entries unchanged; a failure
during the actual load instead propagates (see the counterexample). -/
theorem C6_not_found_skip {env : CallEnv} {st : PluginsState} {name : String}
    (h1 : env.me.findLocal name = false)
    (h2 : env.me.pathSet = false ∨ env.me.findPath name = false)
    (h3 : name ∉ st.modules) :
    register env.me st name = (some 0, st) ∧
      ∀ source target : String, ∀ w : Int, ∀ rest : List (Int × String),
        procMods env source target ((w, name) :: rest) st =
          procMods env source target rest st := by
  have hf : findable env.me name = false := by
    simp only [findable, h1, Bool.false_eq_true, if_false]
    rcases h2 with h2 | h2
    · simp [h2]
    · simp [h2]
  have hreg : register env.me st name = (some 0, st) := by
    simp [register, h3, hf]
  refine ⟨hreg, ?_⟩
  intro source target w rest
  simp only [procMods, hreg]
  rcases hrest : procMods env source target rest st with ⟨ocs, st₂⟩
  cases ocs with
  | none => rfl
  | some cs => simp

/-- Witness for C6 at a concrete unfindable module: register reports 0
and the loop result is the same as without the entry. -/
theorem C6_witness :
    register envC6.me ⟨[], []⟩ "m" = (some 0, ⟨[], []⟩) ∧
      procMods envC6 "s" "t" [((5 : Int), "m")] ⟨[], []⟩ =
        procMods envC6 "s" "t" [] ⟨[], []⟩ :=
  ⟨(@C6_not_found_skip envC6 ⟨[], []⟩ "m" rfl (Or.inl rfl) (by simp)).1,
   (@C6_not_found_skip envC6 ⟨[], []⟩ "m" rfl (Or.inl rfl) (by simp)).2
     "s" "t" 5 []⟩

/-- C7: when a first register call for a name returns LOADED (1), a
second call returns ALREADY_LOADED (2) with the registry unchanged,
the name is cached, and exactly one load was performed between the two
states. -/
theorem C7_register_idempotent {me : ModEnv} {st st₁ : PluginsState}
    {name : String} (h : register me st name = (some 1, st₁)) :
    register me st₁ name = (some 2, st₁) ∧
      st₁.loadEvents.count name = st.loadEvents.count name + 1 ∧
      name ∈ st₁.modules := by
  unfold register at h
  split at h
  · injection h with h1 h2
    injection h1 with h1
    simp at h1
  · split at h
    · split at h
      · injection h with h1 h2
        cases h1
      · injection h with h1 h2
        subst h2
        refine ⟨?_, ?_, ?_⟩
        · simp [register]
        · simp
        · simp
    · injection h with h1 h2
      injection h1 with h1
      simp at h1

/-- Witness for C7 at a concrete state: the second call answers 2 on
the state produced by a first successful call from the empty
registry. -/
theorem C7_witness :
    register meAll ⟨["m7"], ["m7"]⟩ "m7" = (some 2, ⟨["m7"], ["m7"]⟩) ∧
      (PluginsState.mk ["m7"] ["m7"]).loadEvents.count "m7" =
        (PluginsState.mk [] []).loadEvents.count "m7" + 1 ∧
      "m7" ∈ (PluginsState.mk ["m7"] ["m7"]).modules :=
  @C7_register_idempotent meAll ⟨[], []⟩ ⟨["m7"], ["m7"]⟩ "m7" rfl

/-- C1 as stated is refuted: after the two add_rule calls the weighted
list is [(5, zmod), (5, amod)], so the candidates of equal weight are
encountered with zmod first (the prepend-on-override order), yet the
call attempts amod first and returns its node — `conv.sort()` compares
whole tuples, so equal-weight ties are broken by the later string
components (here the module name), not by encounter order. -/
theorem C1_counterexample :
    (procRules envC1 cC1 "t.pdf" false cC1.rules ⟨[], []⟩).1 =
        .go [(5, "s.dvi", "t.pdf", "zmod"), (5, "s.dvi", "t.pdf", "amod")] ∧
      (convCall envC1 cC1 "t.pdf" false ⟨[], []⟩).2.2.2 =
        [(5, "s.dvi", "t.pdf", "amod")] ∧
      (convCall envC1 cC1 "t.pdf" false ⟨[], []⟩).1 = some (.pair 5 1) :=
  ⟨rfl, rfl, rfl⟩

/-- C1 amended: candidates are attempted in ascending lexicographic
order of the whole tuple (weight, source, target, module name) — in
particular in non-decreasing weight order; among equal weights the tie
is broken by the remaining tuple components (encounter order survives
only between fully identical tuples, the sort being stable). -/
theorem C1_attempts_sorted (env : CallEnv) (c : Converter) (target : String)
    (safe : Bool) (st : PluginsState) :
    List.Pairwise (fun a b => candLe a b = true)
        (convCall env c target safe st).2.2.2 ∧
      List.Pairwise (fun a b : Cand => a.1 ≤ b.1)
        (convCall env c target safe st).2.2.2 := by
  have H : List.Pairwise (fun a b => candLe a b = true)
      (convCall env c target safe st).2.2.2 := by
    rcases hpr : procRules env c target safe c.rules st with ⟨p, st₁⟩
    cases p with
    | raised => simp [convCall, hpr]
    | leafReturn => simp [convCall, hpr]
    | go conv =>
      have hsor := pySort_sorted conv
      have hsub := tryConv_trace_sublist env (pySort conv)
      rcases htc : tryConv env (pySort conv) with ⟨ores, tr⟩
      rw [htc] at hsub
      have htr := List.Pairwise.sublist hsub hsor
      cases ores with
      | none =>
        simp only [convCall, hpr, htc]
        exact htr
      | some p2 =>
        obtain ⟨w, n⟩ := p2
        simp only [convCall, hpr, htc]
        exact htr
  exact ⟨H, H.imp (fun hab => candLe_weight hab)⟩

/-- C2 as stated is refuted: the safe-mode short-circuit returns the
bare dependency leaf (`return DependLeaf(env, target)` on line 280),
which is a node object and not a pair of either shape. -/
theorem C2_counterexample :
    (convCall envLeaf cLeaf "t.pdf" true ⟨[], []⟩).1 =
        some (.leaf "t.pdf") ∧
      CallResult.isPair (.leaf "t.pdf") = false :=
  ⟨rfl, rfl⟩

/-- C2 amended: every value returned by resolution is the failure pair
(None, None), a success pair (weight, node), or — only in the safe-mode
short-circuit, which requires `safe` set and the target existing on
disk — a bare Leaf node for the target; when a module load raises, the
call returns nothing at all (the exception propagates, result
`none`). -/
theorem C2_return_shape (env : CallEnv) (c : Converter) (target : String)
    (safe : Bool) (st : PluginsState) :
    (convCall env c target safe st).1 = none ∨
      (convCall env c target safe st).1 = some .nonePair ∨
      (∃ w n, (convCall env c target safe st).1 = some (.pair w n)) ∨
      ((convCall env c target safe st).1 = some (.leaf target) ∧
        safe = true ∧ env.fsExists target = true) := by
  rcases hpr : procRules env c target safe c.rules st with ⟨p, st₁⟩
  cases p with
  | raised =>
    left
    simp [convCall, hpr]
  | leafReturn =>
    right; right; right
    obtain ⟨h1, h2⟩ := procRules_leafReturn hpr
    exact ⟨by simp [convCall, hpr], h1, h2⟩
  | go conv =>
    rcases htc : tryConv env (pySort conv) with ⟨ores, tr⟩
    cases ores with
    | none =>
      right; left
      simp [convCall, hpr, htc]
    | some p2 =>
      obtain ⟨w, n⟩ := p2
      right; right; left
      exact ⟨w, n, by simp [convCall, hpr, htc]⟩

/-- C3 as stated is refuted: all of the claim's hypotheses hold at the
`P`/`s.dvi` candidate (target exists, source exists, the other pattern
`Q` matches the source), yet resolution does not return a Leaf node —
the candidate enumerated before it names `badmod`, whose load raises,
so the exception propagates (result `none`). -/
theorem C3_counterexample :
    envC3.fsExists "t.pdf" = true ∧
      envC3.pmatch "P" "t.pdf" = true ∧
      envC3.fsExists (envC3.expand "P" "t.pdf" "s.dvi") = true ∧
      envC3.pmatch "Q" (envC3.expand "P" "t.pdf" "s.dvi") = true ∧
      may_produce envC3 cC3 (envC3.expand "P" "t.pdf" "s.dvi") = true ∧
      (convCall envC3 cC3 "t.pdf" true ⟨[], []⟩).1 = none :=
  ⟨rfl, rfl, rfl, rfl, rfl, rfl⟩

/-- C3 amended: under the claim's hypotheses a safe-mode call never
invokes any plugin's convert (the attempt trace is empty), and it
returns the bare Leaf node for the target unless a module load raised
before the short-circuit was reached, in which case the exception
propagates and the call returns nothing. -/
theorem C3_safe_leaf {env : CallEnv} {c : Converter} {target : String}
    {st : PluginsState} {dest src : String}
    {srcs : List (String × WeightedList)} {mods : WeightedList}
    (htg : env.fsExists target = true)
    (hd : (dest, srcs) ∈ c.rules)
    (hpm : env.pmatch dest target = true)
    (hs : (src, mods) ∈ srcs)
    (hex : env.fsExists (env.expand dest target src) = true)
    (hmp : may_produce env c (env.expand dest target src) = true) :
    ((convCall env c target true st).1 = some (.leaf target) ∨
        (convCall env c target true st).1 = none) ∧
      (convCall env c target true st).2.2.2 = [] := by
  have hng := procRules_no_go htg dest srcs hd hpm src mods hs hex hmp st
  rcases hpr : procRules env c target true c.rules st with ⟨p, st₁⟩
  rw [hpr] at hng
  cases p with
  | raised =>
    exact ⟨Or.inr (by simp [convCall, hpr]), by simp [convCall, hpr]⟩
  | leafReturn =>
    exact ⟨Or.inl (by simp [convCall, hpr]), by simp [convCall, hpr]⟩
  | go conv => simp [Phase1.isGo] at hng

/-- Witness for C3 at a concrete safe-mode call that takes the
short-circuit: the result is the bare leaf and nothing is attempted. -/
theorem C3_witness :
    ((convCall envLeaf cLeaf "t.pdf" true ⟨[], []⟩).1 =
          some (.leaf "t.pdf") ∨
        (convCall envLeaf cLeaf "t.pdf" true ⟨[], []⟩).1 = none) ∧
      (convCall envLeaf cLeaf "t.pdf" true ⟨[], []⟩).2.2.2 = [] :=
  @C3_safe_leaf envLeaf cLeaf "t.pdf" ⟨[], []⟩ "P" "s.dvi"
    [("s.dvi", [(5, "amod")])] [(5, "amod")] rfl (by simp [cLeaf]) rfl
    (by simp) rfl rfl

/-- C4: when the enumeration completes with two recorded candidates of
weights w1 < w2 and the w1 candidate's plugin accepts, resolution
returns a pair whose weight is at most w1 — so never the w2
candidate's node — and the w2 candidate's convert is never even
attempted. -/
theorem C4_weight_monotone {env : CallEnv} {c : Converter} {target : String}
    {safe : Bool} {st st₁ : PluginsState} {conv : List Cand}
    {w₁ w₂ : Int} {s₁ t₁ m₁ s₂ t₂ m₂ : String} {n₁ : Nat}
    (hpr : procRules env c target safe c.rules st = (.go conv, st₁))
    (h1 : (w₁, s₁, t₁, m₁) ∈ conv) (h2 : (w₂, s₂, t₂, m₂) ∈ conv)
    (hw : w₁ < w₂)
    (hacc : env.convert m₁ s₁ t₁ = some n₁) :
    (∃ w n, (convCall env c target safe st).1 = some (.pair w n) ∧ w ≤ w₁) ∧
      (w₂, s₂, t₂, m₂) ∉ (convCall env c target safe st).2.2.2 := by
  have hmem : ((w₁, s₁, t₁, m₁) : Cand) ∈ pySort conv := mem_pySort.2 h1
  obtain ⟨w, k, hsome, hwle, htrace⟩ :=
    tryConv_success (pySort_sorted conv) hmem hacc
  rcases htc : tryConv env (pySort conv) with ⟨ores, tr⟩
  rw [htc] at hsome htrace
  have hores : ores = some (w, k) := hsome
  subst hores
  constructor
  · exact ⟨w, k, by simp [convCall, hpr, htc], hwle⟩
  · intro hmem₂
    have hTR : (convCall env c target safe st).2.2.2 = tr := by
      simp [convCall, hpr, htc]
    rw [hTR] at hmem₂
    exact absurd (htrace _ hmem₂) (not_le.2 hw)

/-- Witness for C4 at a concrete two-candidate call: the returned
weight is at most 1 and the weight-2 candidate is never attempted. -/
theorem C4_witness :
    (∃ w n, (convCall envW4 cW4 "t" false ⟨[], []⟩).1 =
        some (.pair w n) ∧ w ≤ 1) ∧
      ((2 : Int), "s", "t", "b") ∉
        (convCall envW4 cW4 "t" false ⟨[], []⟩).2.2.2 :=
  @C4_weight_monotone envW4 cW4 "t" false ⟨[], []⟩ ⟨["b", "a"], ["b", "a"]⟩
    [(1, "s", "t", "a"), (2, "s", "t", "b")] 1 2 "s" "t" "a" "s" "t" "b" 10
    rfl (by simp) (by simp) (by decide) rfl

/-- C8: every attempted candidate's expanded source exists on disk at
call time, and a successful resolution's node was produced by such a
candidate's plugin from an existing source. -/
theorem C8_source_exists (env : CallEnv) (c : Converter) (target : String)
    (safe : Bool) (st : PluginsState) :
    (∀ cd ∈ (convCall env c target safe st).2.2.2,
        env.fsExists cd.2.1 = true) ∧
      ∀ w n, (convCall env c target safe st).1 = some (.pair w n) →
        ∃ s m, env.fsExists s = true ∧ env.convert m s target = some n ∧
          (w, s, target, m) ∈ (convCall env c target safe st).2.2.2 := by
  rcases hpr : procRules env c target safe c.rules st with ⟨p, st₁⟩
  cases p with
  | raised =>
    constructor
    · intro cd hcd
      simp [convCall, hpr] at hcd
    · intro w n hres
      simp [convCall, hpr] at hres
  | leafReturn =>
    constructor
    · intro cd hcd
      simp [convCall, hpr] at hcd
    · intro w n hres
      simp [convCall, hpr] at hres
  | go conv =>
    have hconv := procRules_conv hpr
    have hsub := tryConv_trace_sublist env (pySort conv)
    rcases htc : tryConv env (pySort conv) with ⟨ores, tr⟩
    rw [htc] at hsub
    have hTR : (convCall env c target safe st).2.2.2 = tr := by
      cases ores with
      | none => simp [convCall, hpr, htc]
      | some p2 =>
        obtain ⟨w, n⟩ := p2
        simp [convCall, hpr, htc]
    constructor
    · intro cd hcd
      rw [hTR] at hcd
      exact (hconv cd (mem_pySort.1 (hsub.subset hcd))).1
    · intro w n hres
      cases ores with
      | none => simp [convCall, hpr, htc] at hres
      | some p2 =>
        obtain ⟨w₀, n₀⟩ := p2
        have hcc : (convCall env c target safe st).1 = some (.pair w₀ n₀) := by
          simp [convCall, hpr, htc]
        rw [hcc] at hres
        simp only [Option.some_inj, CallResult.pair.injEq] at hres
        obtain ⟨hw0, hn0⟩ := hres
        subst hw0
        subst hn0
        obtain ⟨s, t, m, hmemL, hmemT, hcv⟩ :=
          tryConv_some_mem (l := pySort conv) (by rw [htc])
        rw [htc] at hmemT
        obtain ⟨hfs, htgt⟩ := hconv (w₀, s, t, m) (mem_pySort.1 hmemL)
        have ht : t = target := htgt
        subst ht
        refine ⟨s, m, hfs, hcv, ?_⟩
        rw [hTR]
        exact hmemT

/-- Witness for C8 at a concrete successful resolution: node 10 with
weight 1 comes from an attempted candidate with an existing source. -/
theorem C8_witness :
    ∃ s m, envW4.fsExists s = true ∧ envW4.convert m s "t" = some 10 ∧
      ((1 : Int), s, "t", m) ∈
        (convCall envW4 cW4 "t" false ⟨[], []⟩).2.2.2 :=
  (C8_source_exists envW4 cW4 "t" false ⟨[], []⟩).2 1 10 rfl

/-- C9 as stated is refuted on the "whenever" part: at the `S`/`src9`
candidate the target and source exist and may_produce holds via the
very pattern `S` that matched the target (and only via it), yet the
short-circuit is not taken — the earlier candidate's module `badmod9`
raises during load, so the call propagates the exception instead. -/
theorem C9_counterexample :
    envC9.fsExists "t9" = true ∧
      envC9.pmatch "S" "t9" = true ∧
      envC9.fsExists (envC9.expand "S" "t9" "src9") = true ∧
      envC9.pmatch "S" (envC9.expand "S" "t9" "src9") = true ∧
      envC9.pmatch "R" (envC9.expand "S" "t9" "src9") = false ∧
      may_produce envC9 cC9 (envC9.expand "S" "t9" "src9") = true ∧
      (convCall envC9 cC9 "t9" true ⟨[], []⟩).1 = none :=
  ⟨rfl, rfl, rfl, rfl, rfl, rfl, rfl⟩

/-- C9 amended: `may_produce` — and hence the short-circuit condition —
accepts the very pattern that matched the target, with no restriction
to a distinct pattern; under the same-pattern hypotheses the safe-mode
call never invokes any convert and returns the bare leaf unless an
earlier module load raised, in which case the exception propagates. -/
theorem C9_same_pattern_short_circuit {env : CallEnv} {c : Converter}
    {target : String} {st : PluginsState} {dest src : String}
    {srcs : List (String × WeightedList)} {mods : WeightedList}
    (htg : env.fsExists target = true)
    (hd : (dest, srcs) ∈ c.rules)
    (hpm : env.pmatch dest target = true)
    (hs : (src, mods) ∈ srcs)
    (hex : env.fsExists (env.expand dest target src) = true)
    (hsame : env.pmatch dest (env.expand dest target src) = true) :
    may_produce env c (env.expand dest target src) = true ∧
      ((convCall env c target true st).1 = some (.leaf target) ∨
        (convCall env c target true st).1 = none) ∧
      (convCall env c target true st).2.2.2 = [] := by
  have hmp : may_produce env c (env.expand dest target src) = true := by
    unfold may_produce
    rw [List.any_eq_true]
    exact ⟨(dest, srcs), hd, hsame⟩
  have hng := procRules_no_go htg dest srcs hd hpm src mods hs hex hmp st
  rcases hpr : procRules env c target true c.rules st with ⟨p, st₁⟩
  rw [hpr] at hng
  cases p with
  | raised =>
    exact ⟨hmp, Or.inr (by simp [convCall, hpr]), by simp [convCall, hpr]⟩
  | leafReturn =>
    exact ⟨hmp, Or.inl (by simp [convCall, hpr]), by simp [convCall, hpr]⟩
  | go conv => simp [Phase1.isGo] at hng

/-- Witness for C9 at a concrete call whose only pattern matches both
the target and the source: the short-circuit fires on the same
pattern. -/
theorem C9_witness :
    may_produce envLeaf cLeaf (envLeaf.expand "P" "t.pdf" "s.dvi") = true ∧
      ((convCall envLeaf cLeaf "t.pdf" true ⟨[], []⟩).1 =
          some (.leaf "t.pdf") ∨
        (convCall envLeaf cLeaf "t.pdf" true ⟨[], []⟩).1 = none) ∧
      (convCall envLeaf cLeaf "t.pdf" true ⟨[], []⟩).2.2.2 = [] :=
  @C9_same_pattern_short_circuit envLeaf cLeaf "t.pdf" ⟨[], []⟩ "P" "s.dvi"
    [("s.dvi", [(5, "amod")])] [(5, "amod")] rfl (by simp [cLeaf]) rfl
    (by simp) rfl rfl

/-- C10 as stated is refuted on the "loaded and cached" part: the
plugin `ghost` is named by a candidate entry whose expanded source
exists and the call returns (None, None), yet `ghost` is not loaded or
cached — the module search cannot locate it, so register answered
NOT_FOUND and the registry stayed empty. -/
theorem C10_counterexample :
    envC10.fsExists "s" = true ∧
      (convCall envC10 cC10 "t" false ⟨[], []⟩).1 = some .nonePair ∧
      (convCall envC10 cC10 "t" false ⟨[], []⟩).2.2.1 = ⟨[], []⟩ :=
  ⟨rfl, rfl, rfl⟩

/-- C10 amended: resolution never modifies the rule table, and when the
call completes the enumeration (returning one of the two pair shapes),
every findable plugin named by a candidate entry whose expanded source
exists ends up loaded and cached in the registry — even plugins whose
convert is never invoked and even when the result is (None, None);
unfindable plugins are skipped and stay uncached. -/
theorem C10_frame {env : CallEnv} {c : Converter} {target : String}
    {safe : Bool} {st : PluginsState} :
    (convCall env c target safe st).2.1 = c ∧
      (((convCall env c target safe st).1 = some .nonePair ∨
          ∃ w n, (convCall env c target safe st).1 = some (.pair w n)) →
        ∀ dest srcs, (dest, srcs) ∈ c.rules →
          env.pmatch dest target = true →
          ∀ src mods, (src, mods) ∈ srcs →
            env.fsExists (env.expand dest target src) = true →
            ∀ w m, (w, m) ∈ mods → findable env.me m = true →
              m ∈ (convCall env c target safe st).2.2.1.modules) := by
  rcases hpr : procRules env c target safe c.rules st with ⟨p, st₁⟩
  cases p with
  | raised =>
    refine ⟨by simp [convCall, hpr], ?_⟩
    intro hres
    rcases hres with hres | ⟨w, n, hres⟩ <;> simp [convCall, hpr] at hres
  | leafReturn =>
    refine ⟨by simp [convCall, hpr], ?_⟩
    intro hres
    rcases hres with hres | ⟨w, n, hres⟩ <;> simp [convCall, hpr] at hres
  | go conv =>
    have hreg := procRules_registers hpr
    rcases htc : tryConv env (pySort conv) with ⟨ores, tr⟩
    have hstate : (convCall env c target safe st).2.2.1 = st₁ := by
      cases ores with
      | none => simp [convCall, hpr, htc]
      | some p2 =>
        obtain ⟨w, n⟩ := p2
        simp [convCall, hpr, htc]
    have hcv : (convCall env c target safe st).2.1 = c := by
      cases ores with
      | none => simp [convCall, hpr, htc]
      | some p2 =>
        obtain ⟨w, n⟩ := p2
        simp [convCall, hpr, htc]
    refine ⟨hcv, ?_⟩
    intro _ dest srcs hd hpm src mods hsm hex w m hwm hf
    rw [hstate]
    exact hreg dest srcs hd hpm src mods hsm hex w m hwm hf

/-- Witness for C10 at a concrete declining plugin: the call returns
(None, None) yet `plug` was loaded and cached as a side effect. -/
theorem C10_witness :
    "plug" ∈ (convCall envW10 cW10 "t" false ⟨[], []⟩).2.2.1.modules :=
  (@C10_frame envW10 cW10 "t" false ⟨[], []⟩).2 (Or.inl rfl) "P"
    [("s", [(1, "plug")])] (by simp [cW10]) rfl "s" [(1, "plug")] (by simp)
    rfl 1 "plug" (by simp) rfl

end Rubber
